import Mathlib

/-!
Verification of the AskTheYouTube transcript chunking, retrieval and
summarization services against their natural-language specification.

The Python services are shallowly embedded as Lean functions:
* `createTextMap`, `findTimestampForChunk`, `chunkTranscript` embed
  `src/services/chunking_service.py` (`ChunkingService`);
* `batchChunks`, `generateFullSummary` embed
  `src/services/summary_service.py` (`SummaryService`);
* `getContext` embeds `src/services/retrieval_service.py` (`RetrievalService`);
* `classify` embeds `src/services/intent_classifier.py` (`IntentClassifier`);
* `checkVideoExists` embeds `src/services/pinecone_client.py` (`PineconeClient`).

External collaborators (the langchain text splitter, the uuid generator, the
Vertex LLM, the Pinecone index) are parameters of the embedded functions:
the theorems quantify over their behaviour.  Python `float` timestamps are
modelled as `ℚ`, Python `int` as `ℤ`/`ℕ`.
-/

namespace AskTheYouTube

/-- A transcript segment as produced by the transcript source:
`{"text": ..., "start": ...}`. -/
structure TranscriptSegment where
  text : String
  start : ℚ
deriving Repr, DecidableEq

/-- One pass of the loop body of `ChunkingService._create_text_map`:
the running `full_text` and `offset_map` accumulators are threaded through.
Each iteration records `(len(full_text), segment.start)` and then appends
`segment.text + " "` to `full_text`. -/
def createTextMapAux : List TranscriptSegment → String → List (ℤ × ℚ) → String × List (ℤ × ℚ)
  | [], fullText, offsetMap => (fullText, offsetMap)
  | seg :: rest, fullText, offsetMap =>
      createTextMapAux rest (fullText ++ seg.text ++ " ")
        (offsetMap ++ [((fullText.length : ℤ), seg.start)])

/-- `ChunkingService._create_text_map`: concatenates all segment texts (with a
trailing space after each) and maps each segment's starting character index to
its start time. -/
def createTextMap (segments : List TranscriptSegment) : String × List (ℤ × ℚ) :=
  createTextMapAux segments "" []

/-- CPython's `bisect.bisect_right` loop, with explicit fuel.  The loop body is
exactly `while lo < hi: mid = (lo+hi)//2; if x < a[mid]: hi = mid else:
lo = mid+1`.  Each iteration shrinks `hi - lo` by at least one, so any fuel
larger than the initial `hi - lo` makes the fuel bound unreachable. -/
def bisectRightAux (a : List ℤ) (x : ℤ) : ℕ → ℕ → ℕ → ℕ
  | 0, lo, _ => lo
  | fuel + 1, lo, hi =>
      if lo < hi then
        let mid := (lo + hi) / 2
        if x < a.getD mid 0 then bisectRightAux a x fuel lo mid
        else bisectRightAux a x fuel (mid + 1) hi
      else lo

/-- `bisect.bisect_right(a, x)`: insertion point to the right of `x` in the
sorted list `a`.  Fuel `a.length + 1` strictly exceeds the iteration count. -/
def bisectRight (a : List ℤ) (x : ℤ) : ℕ :=
  bisectRightAux a x (a.length + 1) 0 a.length

/-- `ChunkingService._find_timestamp_for_chunk`: bisect over the offsets, then
take the entry left of the insertion point; `0.0` when there is none. -/
def findTimestampForChunk (chunkStartIndex : ℤ) (offsetMap : List (ℤ × ℚ)) : ℚ :=
  let indices := offsetMap.map Prod.fst
  let idx := bisectRight indices chunkStartIndex
  if 0 < idx then (offsetMap.getD (idx - 1) (0, 0)).2 else 0

/-- Reference reading of the resolve contract: the start time of the last
offset-map entry whose offset is `≤ position`, and `0` when no entry
qualifies. -/
def lastStartLE (offsetMap : List (ℤ × ℚ)) (position : ℤ) : ℚ :=
  ((offsetMap.filter (fun e => decide (e.1 ≤ position))).map Prod.snd).getLastD 0

/-- Character offset at which segment `i`'s text begins in the concatenation
(each earlier segment contributes its text plus one separating space). -/
def segStartOffset (segments : List TranscriptSegment) (i : ℕ) : ℕ :=
  (((segments.take i).map (fun s => s.text.length + 1)).sum)

/-- Offset map produced for `segments` when the text accumulated so far has
length `base`; structural description of `createTextMapAux`'s second result. -/
def offsetsFrom (base : ℕ) : List TranscriptSegment → List (ℤ × ℚ)
  | [] => []
  | seg :: rest => ((base : ℤ), seg.start) :: offsetsFrom (base + seg.text.length + 1) rest

/-- The concatenated transcript text: each segment's text followed by one
separating space. -/
def joinTexts : List TranscriptSegment → String
  | [] => ""
  | seg :: rest => seg.text ++ " " ++ joinTexts rest

theorem createTextMapAux_eq (segments : List TranscriptSegment) :
    ∀ (t : String) (m : List (ℤ × ℚ)),
      createTextMapAux segments t m
        = (t ++ joinTexts segments, m ++ offsetsFrom t.length segments) := by
  induction segments with
  | nil => intro t m; simp [createTextMapAux, offsetsFrom, joinTexts]
  | cons seg rest ih =>
      intro t m
      simp only [createTextMapAux, offsetsFrom, joinTexts]
      rw [ih]
      simp only [Prod.mk.injEq]
      constructor
      · simp [String.append_assoc]
      · simp only [String.length_append, List.append_assoc, List.singleton_append,
          String.length_singleton]
        rfl

theorem createTextMap_eq (segments : List TranscriptSegment) :
    createTextMap segments = (joinTexts segments, offsetsFrom 0 segments) := by
  have h := createTextMapAux_eq segments "" []
  simpa [createTextMap] using h

theorem offsetsFrom_length (segments : List TranscriptSegment) :
    ∀ base, (offsetsFrom base segments).length = segments.length := by
  induction segments with
  | nil => intro base; simp [offsetsFrom]
  | cons seg rest ih => intro base; simp [offsetsFrom, ih]

theorem offsetsFrom_get? (segments : List TranscriptSegment) :
    ∀ base i (h : i < segments.length),
      (offsetsFrom base segments).get? i
        = some (((base + segStartOffset segments i : ℕ) : ℤ), (segments.get ⟨i, h⟩).start) := by
  induction segments with
  | nil => intro base i h; simp at h
  | cons seg rest ih =>
      intro base i h
      cases i with
      | zero => simp [offsetsFrom, segStartOffset]
      | succ j =>
          have hj : j < rest.length := by simpa using h
          simp only [offsetsFrom, List.get?_cons_succ]
          rw [ih (base + seg.text.length + 1) j hj]
          have hs : segStartOffset (seg :: rest) (j + 1)
              = seg.text.length + 1 + segStartOffset rest j := by
            simp [segStartOffset, List.take_succ_cons]
          simp only [Option.some.injEq, Prod.mk.injEq, hs, List.get_cons_succ]
          refine ⟨?_, trivial⟩
          push_cast
          omega

theorem offsetsFrom_fst_lb (segments : List TranscriptSegment) :
    ∀ base x, x ∈ (offsetsFrom base segments).map Prod.fst → (base : ℤ) ≤ x := by
  induction segments with
  | nil => intro base x hx; simp [offsetsFrom] at hx
  | cons seg rest ih =>
      intro base x hx
      simp only [offsetsFrom, List.map_cons, List.mem_cons] at hx
      rcases hx with h | h
      · omega
      · have := ih (base + seg.text.length + 1) x h
        push_cast at this ⊢
        omega

theorem offsetsFrom_fst_chain (segments : List TranscriptSegment) :
    ∀ base, List.Chain' (· < ·) ((offsetsFrom base segments).map Prod.fst) := by
  induction segments with
  | nil => intro base; simp [offsetsFrom]
  | cons seg rest ih =>
      intro base
      simp only [offsetsFrom, List.map_cons]
      refine List.chain'_cons'.mpr ⟨?_, ih _⟩
      intro y hy
      have hmem : y ∈ (offsetsFrom (base + seg.text.length + 1) rest).map Prod.fst := by
        exact List.mem_of_mem_head? hy
      have := offsetsFrom_fst_lb rest _ y hmem
      push_cast at this ⊢
      omega

theorem offsetsFrom_snd (segments : List TranscriptSegment) :
    ∀ base, (offsetsFrom base segments).map Prod.snd = segments.map (fun s => s.start) := by
  induction segments with
  | nil => intro base; simp [offsetsFrom]
  | cons seg rest ih => intro base; simp [offsetsFrom, ih]

theorem chain_lt_getD_mono (l : List ℤ) (h : List.Chain' (· < ·) l) :
    ∀ i j, i ≤ j → j < l.length → l.getD i 0 ≤ l.getD j 0 := by
  intro i j hij hj
  have hi : i < l.length := lt_of_le_of_lt (by omega) hj
  rw [List.getD_eq_getElem l 0 hi, List.getD_eq_getElem l 0 hj]
  rcases eq_or_lt_of_le hij with rfl | hlt
  · exact le_refl _
  · have hp : l.Pairwise (· < ·) := List.chain'_iff_pairwise.mp h
    exact le_of_lt ((List.pairwise_iff_get.mp hp) ⟨i, hi⟩ ⟨j, hj⟩ hlt)

theorem bisectRightAux_spec (a : List ℤ) (x : ℤ)
    (hsort : ∀ i j, i ≤ j → j < a.length → a.getD i 0 ≤ a.getD j 0) :
    ∀ fuel lo hi, hi - lo ≤ fuel → lo ≤ hi → hi ≤ a.length →
      (∀ i, i < lo → a.getD i 0 ≤ x) →
      (∀ i, hi ≤ i → i < a.length → x < a.getD i 0) →
      lo ≤ bisectRightAux a x fuel lo hi ∧ bisectRightAux a x fuel lo hi ≤ hi ∧
      (∀ i, i < bisectRightAux a x fuel lo hi → a.getD i 0 ≤ x) ∧
      (∀ i, bisectRightAux a x fuel lo hi ≤ i → i < a.length → x < a.getD i 0) := by
  intro fuel
  induction fuel with
  | zero =>
      intro lo hi hfuel hlohi hhi hbelow habove
      have heq : lo = hi := by omega
      subst heq
      exact ⟨le_refl _, le_refl _, hbelow, habove⟩
  | succ n ih =>
      intro lo hi hfuel hlohi hhi hbelow habove
      by_cases hlt : lo < hi
      · simp only [bisectRightAux, if_pos hlt]
        set mid := (lo + hi) / 2 with hmid
        have hmid_lo : lo ≤ mid := by omega
        have hmid_hi : mid < hi := by omega
        by_cases hx : x < a.getD mid 0
        · simp only [if_pos hx]
          refine (ih lo mid (by omega) hmid_lo (by omega) hbelow ?_).imp id
            (fun h => ⟨le_trans h.1 (le_of_lt hmid_hi), h.2⟩)
          intro i hmi hil
          exact lt_of_lt_of_le hx (hsort mid i hmi hil)
        · simp only [if_neg hx]
          push_neg at hx
          refine (ih (mid + 1) hi (by omega) (by omega) hhi ?_ habove).imp
            (fun h => le_trans (by omega) h) id
          intro i hi1
          have him : i ≤ mid := by omega
          exact le_trans (hsort i mid him (by omega)) hx
      · simp only [bisectRightAux, if_neg hlt]
        exact ⟨le_refl _, by omega, hbelow, fun i hli hil => habove i (by omega) hil⟩

theorem bisectRight_spec (a : List ℤ) (x : ℤ) (h : List.Chain' (· < ·) a) :
    bisectRight a x ≤ a.length ∧
    (∀ i, i < bisectRight a x → a.getD i 0 ≤ x) ∧
    (∀ i, bisectRight a x ≤ i → i < a.length → x < a.getD i 0) := by
  have hs := bisectRightAux_spec a x (chain_lt_getD_mono a h) (a.length + 1) 0 a.length
    (by omega) (by omega) (le_refl _) (by omega) (by omega)
  exact ⟨hs.2.1, hs.2.2⟩

theorem filter_eq_take {α : Type} (p : α → Bool) :
    ∀ (l : List α) (r : ℕ), r ≤ l.length →
      (∀ i (h : i < l.length), i < r → p (l.get ⟨i, h⟩) = true) →
      (∀ i (h : i < l.length), r ≤ i → p (l.get ⟨i, h⟩) = false) →
      l.filter p = l.take r := by
  intro l
  induction l with
  | nil => intro r hr _ _; simp at hr; simp [hr]
  | cons a t ih =>
      intro r hr h1 h2
      cases r with
      | zero =>
          rw [List.take_zero]
          rw [List.filter_eq_nil_iff]
          intro x hx
          obtain ⟨⟨i, hi⟩, rfl⟩ := List.mem_iff_get.mp hx
          simpa [List.get_eq_getElem] using h2 i hi (Nat.zero_le i)
      | succ r =>
          have hpa : p a = true := by
            have := h1 0 (by simp) (Nat.succ_pos r)
            simpa using this
          simp only [List.filter_cons, hpa, if_true, List.take_succ_cons]
          congr 1
          refine ih r (by simpa using hr) ?_ ?_
          · intro i h hi
            have := h1 (i + 1) (by simpa using Nat.succ_lt_succ h) (by omega)
            simpa using this
          · intro i h hi
            have := h2 (i + 1) (by simpa using Nat.succ_lt_succ h) (by omega)
            simpa using this

theorem getLastD_append_singleton {α : Type} (d y : α) (l : List α) :
    (l ++ [y]).getLastD d = y := by
  rw [List.getLastD_eq_getLast?, List.getLast?_concat]
  rfl

theorem findTimestampForChunk_empty (p : ℤ) :
    findTimestampForChunk p ([] : List (ℤ × ℚ)) = 0 := rfl

/-- On every offset map whose offsets are strictly increasing, the
bisect-based lookup agrees with "start time of the last entry whose offset is
at most the position, else 0". -/
theorem findTimestampForChunk_eq_lastStartLE (m : List (ℤ × ℚ))
    (h : List.Chain' (· < ·) (m.map Prod.fst)) (p : ℤ) :
    findTimestampForChunk p m = lastStartLE m p := by
  obtain ⟨hle, hbelow, habove⟩ := bisectRight_spec (m.map Prod.fst) p h
  have hlen : (m.map Prod.fst).length = m.length := by simp
  set r := bisectRight (m.map Prod.fst) p with hr
  have hgetD : ∀ i (hil : i < m.length),
      (m.map Prod.fst).getD i 0 = (m.get ⟨i, hil⟩).1 := by
    intro i hil
    rw [List.getD_eq_getElem _ 0 (by simpa using hil), List.getElem_map]
    simp [List.get_eq_getElem]
  have hfilter : m.filter (fun e => decide (e.1 ≤ p)) = m.take r := by
    apply filter_eq_take _ m r (by omega)
    · intro i hil hir
      have := hbelow i hir
      rw [hgetD i hil] at this
      simpa using this
    · intro i hil hir
      have := habove i hir (by simpa using hil)
      rw [hgetD i hil] at this
      simpa using this
  have hres : findTimestampForChunk p m
      = if 0 < r then (m.getD (r - 1) (0, 0)).2 else 0 := rfl
  rw [hres]
  unfold lastStartLE
  rw [hfilter]
  cases hr0 : r with
  | zero => simp [hr0]
  | succ k =>
      have hk : k < m.length := by omega
      have htake : m.take (k + 1) = m.take k ++ [m.get ⟨k, hk⟩] := by
        rw [List.take_succ, List.getElem?_eq_getElem hk]
        simp [List.get_eq_getElem]
      rw [htake]
      simp only [Nat.succ_sub_one, if_pos (Nat.succ_pos k)]
      rw [List.map_append]
      simp only [List.map_cons, List.map_nil]
      rw [getLastD_append_singleton]
      rw [List.getD_eq_getElem _ _ hk]
      simp [List.get_eq_getElem]

theorem offsetsFrom_get_snd (segments : List TranscriptSegment) (base i : ℕ)
    (h : i < (offsetsFrom base segments).length) (h' : i < segments.length) :
    ((offsetsFrom base segments).get ⟨i, h⟩).2 = (segments.get ⟨i, h'⟩).start := by
  have hq := offsetsFrom_get? segments base i h'
  rw [List.get?_eq_get h] at hq
  have := Option.some.inj hq
  rw [this]

theorem getD_eq_get {α : Type} (l : List α) (d : α) (i : ℕ) (h : i < l.length) :
    l.getD i d = l.get ⟨i, h⟩ := by
  rw [List.getD_eq_getElem _ _ h]
  simp [List.get_eq_getElem]

theorem chain_le_get_mono (l : List ℚ) (h : List.Chain' (· ≤ ·) l) :
    ∀ i j (hj : j < l.length) (hij : i ≤ j),
      l.get ⟨i, lt_of_le_of_lt hij hj⟩ ≤ l.get ⟨j, hj⟩ := by
  intro i j hj hij
  rcases eq_or_lt_of_le hij with rfl | hlt
  · exact le_refl _
  · have hp : l.Pairwise (· ≤ ·) := List.chain'_iff_pairwise.mp h
    exact (List.pairwise_iff_get.mp hp) _ ⟨j, hj⟩ hlt

theorem chain_le_starts_get (segments : List TranscriptSegment)
    (h : List.Chain' (· ≤ ·) (segments.map (fun s => s.start))) :
    ∀ i j (hj : j < segments.length) (hij : i ≤ j),
      (segments.get ⟨i, lt_of_le_of_lt hij hj⟩).start ≤ (segments.get ⟨j, hj⟩).start := by
  intro i j hj hij
  have := chain_le_get_mono _ h i j (by simpa using hj) hij
  simpa [List.get_eq_getElem] using this

/-- C1: `_create_text_map` produces one offset-map entry per segment, the
entry for segment `i` carrying the character offset at which that segment's
text starts in the concatenation (each segment's text is followed by one
appended space) paired with its start time; the offsets are strictly
increasing; and for every integer position, `_find_timestamp_for_chunk`
returns the start time of the last entry whose offset is at most the
position, returning `0` when no such entry exists — in particular always `0`
on the empty offset map. -/
theorem C1_timestamp_indexer_contract (segments : List TranscriptSegment) :
    (createTextMap segments).1 = joinTexts segments
    ∧ ((createTextMap segments).2).length = segments.length
    ∧ List.Chain' (· < ·) (((createTextMap segments).2).map Prod.fst)
    ∧ (∀ i (h : i < segments.length),
        ((createTextMap segments).2).get? i
          = some ((segStartOffset segments i : ℤ), (segments.get ⟨i, h⟩).start))
    ∧ (∀ p : ℤ, findTimestampForChunk p (createTextMap segments).2
          = lastStartLE (createTextMap segments).2 p)
    ∧ (∀ p : ℤ, findTimestampForChunk p ([] : List (ℤ × ℚ)) = 0) := by
  rw [createTextMap_eq]
  refine ⟨rfl, offsetsFrom_length segments 0, offsetsFrom_fst_chain segments 0, ?_, ?_, ?_⟩
  · intro i h
    simpa using offsetsFrom_get? segments 0 i h
  · intro p
    exact findTimestampForChunk_eq_lastStartLE _ (offsetsFrom_fst_chain segments 0) p
  · intro p
    exact findTimestampForChunk_empty p

/-- C1 witness: the contract instantiated on the two-segment transcript
`[("hi", 1/2), ("yo", 3)]`; the second entry sits at offset 3 with start time
3, and position 4 resolves to start time 3. -/
theorem C1_timestamp_indexer_contract_witness :
    (1 < ([⟨"hi", 1/2⟩, ⟨"yo", 3⟩] : List TranscriptSegment).length)
    ∧ ((createTextMap [⟨"hi", 1/2⟩, ⟨"yo", 3⟩]).2).get? 1 = some ((3 : ℤ), 3)
    ∧ findTimestampForChunk 4 (createTextMap [⟨"hi", 1/2⟩, ⟨"yo", 3⟩]).2
        = lastStartLE (createTextMap [⟨"hi", 1/2⟩, ⟨"yo", 3⟩]).2 4 := by
  refine ⟨by decide, ?_, ?_⟩
  · have h := (C1_timestamp_indexer_contract [⟨"hi", 1/2⟩, ⟨"yo", 3⟩]).2.2.2.1 1 (by decide)
    rw [h]
    decide
  · exact (C1_timestamp_indexer_contract [⟨"hi", 1/2⟩, ⟨"yo", 3⟩]).2.2.2.2.1 4

/-- C2 counterexample: the claim quantifies over segment sequences with no
ordering assumption on start times, but `resolve` is not monotone then.  With
segments `[("a", 5), ("b", 1)]` (start times out of order) position 0 resolves
to 5 while the larger position 2 resolves to 1; and with the single segment
`[("a", -1)]` (negative start time) position -1 resolves to 0 while position 0
resolves to -1. -/
theorem C2_resolve_monotone_counterexample :
    (findTimestampForChunk 0 (createTextMap [⟨"a", 5⟩, ⟨"b", 1⟩]).2 = 5
      ∧ findTimestampForChunk 2 (createTextMap [⟨"a", 5⟩, ⟨"b", 1⟩]).2 = 1
      ∧ ¬ (findTimestampForChunk 0 (createTextMap [⟨"a", 5⟩, ⟨"b", 1⟩]).2
            ≤ findTimestampForChunk 2 (createTextMap [⟨"a", 5⟩, ⟨"b", 1⟩]).2))
    ∧ (findTimestampForChunk (-1) (createTextMap [⟨"a", -1⟩]).2 = 0
      ∧ findTimestampForChunk 0 (createTextMap [⟨"a", -1⟩]).2 = -1
      ∧ ¬ (findTimestampForChunk (-1) (createTextMap [⟨"a", -1⟩]).2
            ≤ findTimestampForChunk 0 (createTextMap [⟨"a", -1⟩]).2)) := by
  decide

/-- C2 amended: for every sequence of TranscriptSegments whose start times are
non-decreasing in sequence order and nonnegative, `resolve` over the offset
map built from that sequence is monotonically non-decreasing in the queried
position. -/
theorem C2_resolve_monotone_amended (segments : List TranscriptSegment)
    (hmono : List.Chain' (· ≤ ·) (segments.map (fun s => s.start)))
    (hnn : ∀ s ∈ segments, 0 ≤ s.start) :
    ∀ p q : ℤ, p ≤ q →
      findTimestampForChunk p (createTextMap segments).2
        ≤ findTimestampForChunk q (createTextMap segments).2 := by
  intro p q hpq
  rw [createTextMap_eq]
  set m := offsetsFrom 0 segments with hm
  have hchain : List.Chain' (· < ·) (m.map Prod.fst) := offsetsFrom_fst_chain segments 0
  have hmlen : m.length = segments.length := offsetsFrom_length segments 0
  obtain ⟨hlep, hbelowp, habovep⟩ := bisectRight_spec (m.map Prod.fst) p hchain
  obtain ⟨hleq, hbelowq, haboveq⟩ := bisectRight_spec (m.map Prod.fst) q hchain
  set rp := bisectRight (m.map Prod.fst) p with hrp
  set rq := bisectRight (m.map Prod.fst) q with hrq
  have hlen : (m.map Prod.fst).length = m.length := by simp
  have hrle : rp ≤ rq := by
    by_contra hcon
    push_neg at hcon
    have h1 := hbelowp rq hcon
    have h2 := haboveq rq (le_refl _) (by omega)
    omega
  have hresp : findTimestampForChunk p m
      = if 0 < rp then (m.getD (rp - 1) (0, 0)).2 else 0 := rfl
  have hresq : findTimestampForChunk q m
      = if 0 < rq then (m.getD (rq - 1) (0, 0)).2 else 0 := rfl
  rw [hresp, hresq]
  have hsnd_nn : ∀ i (hi : i < m.length), 0 ≤ (m.get ⟨i, hi⟩).2 := by
    intro i hi
    have hi' : i < segments.length := by omega
    show 0 ≤ ((offsetsFrom 0 segments).get ⟨i, hi⟩).2
    rw [offsetsFrom_get_snd segments 0 i hi hi']
    exact hnn _ (List.get_mem segments i hi')
  by_cases hp0 : 0 < rp
  · have hq0 : 0 < rq := by omega
    rw [if_pos hp0, if_pos hq0]
    have hrp1 : rp - 1 < m.length := by omega
    have hrq1 : rq - 1 < m.length := by omega
    rw [getD_eq_get m (0, 0) _ hrp1, getD_eq_get m (0, 0) _ hrq1]
    have hrp1' : rp - 1 < segments.length := by omega
    have hrq1' : rq - 1 < segments.length := by omega
    show ((offsetsFrom 0 segments).get ⟨rp - 1, hrp1⟩).2
        ≤ ((offsetsFrom 0 segments).get ⟨rq - 1, hrq1⟩).2
    rw [offsetsFrom_get_snd segments 0 _ hrp1 hrp1',
      offsetsFrom_get_snd segments 0 _ hrq1 hrq1']
    exact chain_le_starts_get segments hmono (rp - 1) (rq - 1) hrq1' (by omega)
  · rw [if_neg hp0]
    by_cases hq0 : 0 < rq
    · rw [if_pos hq0]
      have hrq1 : rq - 1 < m.length := by omega
      rw [getD_eq_get m (0, 0) _ hrq1]
      exact hsnd_nn _ hrq1
    · rw [if_neg hq0]

/-- C2 amended witness: with in-order nonnegative start times
`[("a", 0), ("b", 2)]`, position 0 resolves no higher than position 5. -/
theorem C2_resolve_monotone_amended_witness :
    List.Chain' (· ≤ ·) (([⟨"a", 0⟩, ⟨"b", 2⟩] : List TranscriptSegment).map (fun s => s.start))
    ∧ (∀ s ∈ ([⟨"a", 0⟩, ⟨"b", 2⟩] : List TranscriptSegment), 0 ≤ s.start)
    ∧ findTimestampForChunk 0 (createTextMap [⟨"a", 0⟩, ⟨"b", 2⟩]).2
        ≤ findTimestampForChunk 5 (createTextMap [⟨"a", 0⟩, ⟨"b", 2⟩]).2 :=
  ⟨by norm_num [List.chain'_cons], by decide,
    C2_resolve_monotone_amended [⟨"a", 0⟩, ⟨"b", 2⟩] (by norm_num [List.chain'_cons])
      (by decide) 0 5 (by decide)⟩

/-- Python slice `s[:n]`: the first `n` characters of `s`. -/
def strTake (s : String) (n : ℕ) : String := ⟨s.toList.take n⟩

theorem strTake_length (s : String) (n : ℕ) :
    (strTake s n).length = min n s.length := by
  have h : (strTake s n).length = (s.toList.take n).length := rfl
  rw [h, List.length_take]
  rfl

/-- Whether `needle` occurs in `hay` starting exactly at character index `i`. -/
def occursAtB (needle hay : List Char) (i : ℕ) : Bool :=
  decide ((hay.drop i).take needle.length = needle)

/-- Python `hay.find(needle, start)` (character indices, `Option` instead of
`-1`): the smallest index `i ≥ start` at which `needle` occurs in `hay`. -/
def findFrom (hay needle : List Char) (start : ℕ) : Option ℕ :=
  (List.range (hay.length + 1)).find? (fun i => decide (start ≤ i) && occursAtB needle hay i)

theorem findFrom_some (hay needle : List Char) (start k : ℕ)
    (h : findFrom hay needle start = some k) :
    start ≤ k ∧ occursAtB needle hay k = true := by
  have hp := List.find?_some h
  simp only [Bool.and_eq_true, decide_eq_true_eq] at hp
  exact hp

theorem findFrom_zero_isSome (hay needle : List Char) (start : ℕ)
    (h : (findFrom hay needle start).isSome = true) :
    (findFrom hay needle 0).isSome = true := by
  rw [Option.isSome_iff_exists] at h
  obtain ⟨k, hk⟩ := h
  have hmem : k ∈ List.range (hay.length + 1) := List.mem_of_find?_eq_some hk
  have hp := findFrom_some hay needle start k hk
  rw [findFrom, List.find?_isSome]
  exact ⟨k, hmem, by simp [hp.2]⟩

/-- Python `int(x)` on a rational: truncation toward zero. -/
def pyInt (q : ℚ) : ℤ := if 0 ≤ q then ⌊q⌋ else ⌈q⌉

theorem pyInt_eq_floor (q : ℚ) (h : 0 ≤ q) : pyInt q = ⌊q⌋ := if_pos h

/-- The enriched document built for one mapped chunk by
`ChunkingService.chunk_transcript` (`values` is left empty for the embedding
service to fill in later). -/
structure ChunkDoc where
  id : String
  values : List ℚ
  video_id : String
  text_content : String
  start_time : ℚ
  chunk_index : ℕ
  source : String
deriving Repr, DecidableEq

/-- The metadata-enrichment loop of `ChunkingService.chunk_transcript`
(step 3): for each raw chunk in order, locate it in `fullText` searching from
`searchPos` (falling back to a search from 0), skip it if not found, otherwise
advance the cursor by half the chunk length and emit the enriched document. -/
def chunkLoop (videoId : String) (uuids : ℕ → String) (fullText : String)
    (offsetMap : List (ℤ × ℚ)) : List String → ℕ → ℕ → List ChunkDoc
  | [], _, _ => []
  | chunkText :: rest, index, searchPos =>
      let found :=
        match findFrom fullText.toList chunkText.toList searchPos with
        | some k => some k
        | none => findFrom fullText.toList chunkText.toList 0
      match found with
      | some startIndex =>
          let timestamp := findTimestampForChunk (startIndex : ℤ) offsetMap
          { id := videoId ++ "_" ++ toString index ++ "_" ++ strTake (uuids index) 8,
            values := [],
            video_id := videoId,
            text_content := chunkText,
            start_time := timestamp,
            chunk_index := index,
            source := "https://www.youtube.com/watch?v=" ++ videoId ++ "&t="
              ++ toString (pyInt timestamp) ++ "s" }
            :: chunkLoop videoId uuids fullText offsetMap rest (index + 1)
                (startIndex + chunkText.length / 2)
      | none => chunkLoop videoId uuids fullText offsetMap rest (index + 1) searchPos

/-- `ChunkingService.chunk_transcript`.  The langchain splitter and the uuid
generator are external collaborators, passed as the parameters `split` and
`uuids` (`uuids index` is the uuid4 string drawn for chunk `index`). -/
def chunkTranscript (uuids : ℕ → String) (split : String → List String)
    (videoId : String) (transcriptData : List TranscriptSegment) : List ChunkDoc :=
  if transcriptData = [] then []
  else
    chunkLoop videoId uuids (createTextMap transcriptData).1 (createTextMap transcriptData).2
      (split (createTextMap transcriptData).1) 0 0

theorem chunkLoop_map_text (videoId : String) (uuids : ℕ → String) (fullText : String)
    (offsetMap : List (ℤ × ℚ)) :
    ∀ (pieces : List String) (index searchPos : ℕ),
      (chunkLoop videoId uuids fullText offsetMap pieces index searchPos).map
          (fun d => d.text_content)
        = pieces.filter (fun p => (findFrom fullText.toList p.toList 0).isSome) := by
  intro pieces
  induction pieces with
  | nil => intro index searchPos; simp [chunkLoop]
  | cons p rest ih =>
      intro index searchPos
      cases h0 : findFrom fullText.toList p.toList searchPos with
      | some k =>
          have hz : (findFrom fullText.toList p.toList 0).isSome = true :=
            findFrom_zero_isSome fullText.toList p.toList searchPos (by rw [h0]; rfl)
          simp only [chunkLoop, h0, List.map_cons]
          rw [ih (index + 1) (k + p.length / 2), List.filter_cons]
          rw [if_pos hz]
      | none =>
          cases h1 : findFrom fullText.toList p.toList 0 with
          | some k =>
              have hS : (findFrom fullText.toList p.toList 0).isSome = true := by
                rw [h1]
                rfl
              simp only [chunkLoop, h0, h1, List.map_cons]
              rw [ih (index + 1) (k + p.length / 2), List.filter_cons]
              rw [if_pos hS]
          | none =>
              have hN : ¬ ((findFrom fullText.toList p.toList 0).isSome = true) := by
                rw [h1]
                simp
              simp only [chunkLoop, h0, h1]
              rw [ih (index + 1) searchPos, List.filter_cons]
              rw [if_neg hN]

theorem chunkLoop_mem_spec (videoId : String) (uuids : ℕ → String) (fullText : String)
    (offsetMap : List (ℤ × ℚ)) :
    ∀ (pieces : List String) (index searchPos : ℕ) (doc : ChunkDoc),
      doc ∈ chunkLoop videoId uuids fullText offsetMap pieces index searchPos →
      ∃ j startIndex,
        pieces.get? j = some doc.text_content
        ∧ doc.chunk_index = index + j
        ∧ doc.id = videoId ++ "_" ++ toString (index + j) ++ "_" ++ strTake (uuids (index + j)) 8
        ∧ doc.video_id = videoId
        ∧ occursAtB doc.text_content.toList fullText.toList startIndex = true
        ∧ doc.start_time = findTimestampForChunk (startIndex : ℤ) offsetMap
        ∧ doc.source = "https://www.youtube.com/watch?v=" ++ videoId ++ "&t="
            ++ toString (pyInt doc.start_time) ++ "s" := by
  intro pieces
  induction pieces with
  | nil => intro index searchPos doc h; simp [chunkLoop] at h
  | cons p rest ih =>
      intro index searchPos doc h
      have hstep : ∀ (k : ℕ),
          occursAtB p.toList fullText.toList k = true →
          doc ∈ ({ id := videoId ++ "_" ++ toString index ++ "_" ++ strTake (uuids index) 8,
                   values := [],
                   video_id := videoId,
                   text_content := p,
                   start_time := findTimestampForChunk (k : ℤ) offsetMap,
                   chunk_index := index,
                   source := "https://www.youtube.com/watch?v=" ++ videoId ++ "&t="
                     ++ toString (pyInt (findTimestampForChunk (k : ℤ) offsetMap)) ++ "s" }
              : ChunkDoc)
            :: chunkLoop videoId uuids fullText offsetMap rest (index + 1)
                (k + p.length / 2) →
          ∃ j startIndex,
            (p :: rest).get? j = some doc.text_content
            ∧ doc.chunk_index = index + j
            ∧ doc.id = videoId ++ "_" ++ toString (index + j) ++ "_"
                ++ strTake (uuids (index + j)) 8
            ∧ doc.video_id = videoId
            ∧ occursAtB doc.text_content.toList fullText.toList startIndex = true
            ∧ doc.start_time = findTimestampForChunk (startIndex : ℤ) offsetMap
            ∧ doc.source = "https://www.youtube.com/watch?v=" ++ videoId ++ "&t="
                ++ toString (pyInt doc.start_time) ++ "s" := by
        intro k hocc hmem
        rcases List.mem_cons.mp hmem with hdoc | hdoc
        · subst hdoc
          exact ⟨0, k, rfl, by simp, by simp, rfl, hocc, rfl, rfl⟩
        · obtain ⟨j, s, h1, h2, h3, h4, h5, h6, h7⟩ := ih (index + 1) (k + p.length / 2) doc hdoc
          refine ⟨j + 1, s, by simpa using h1, by omega, ?_, h4, h5, h6, h7⟩
          have hidx : index + 1 + j = index + (j + 1) := by omega
          rw [← hidx]
          exact h3
      cases h0 : findFrom fullText.toList p.toList searchPos with
      | some k =>
          simp only [chunkLoop, h0] at h
          exact hstep k (findFrom_some _ _ _ _ h0).2 h
      | none =>
          cases h1 : findFrom fullText.toList p.toList 0 with
          | some k =>
              simp only [chunkLoop, h0, h1] at h
              exact hstep k (findFrom_some _ _ _ _ h1).2 h
          | none =>
              simp only [chunkLoop, h0, h1] at h
              obtain ⟨j, s, h1', h2, h3, h4, h5, h6, h7⟩ := ih (index + 1) searchPos doc h
              refine ⟨j + 1, s, by simpa using h1', by omega, ?_, h4, h5, h6, h7⟩
              have hidx : index + 1 + j = index + (j + 1) := by omega
              rw [← hidx]
              exact h3

theorem findTimestampForChunk_nonneg (m : List (ℤ × ℚ)) (h : ∀ e ∈ m, 0 ≤ e.2) (p : ℤ) :
    0 ≤ findTimestampForChunk p m := by
  unfold findTimestampForChunk
  by_cases hidx : 0 < bisectRight (m.map Prod.fst) p
  · rw [if_pos hidx]
    rcases Nat.lt_or_ge (bisectRight (m.map Prod.fst) p - 1) m.length with hlt | hge
    · rw [getD_eq_get m (0, 0) _ hlt]
      exact h _ (List.get_mem m _ hlt)
    · rw [List.getD_eq_default _ _ hge]
  · rw [if_neg hidx]

theorem createTextMap_snd_nonneg (transcriptData : List TranscriptSegment)
    (hnn : ∀ s ∈ transcriptData, 0 ≤ s.start) :
    ∀ e ∈ (createTextMap transcriptData).2, 0 ≤ e.2 := by
  rw [createTextMap_eq]
  intro e he
  have hmem : e.2 ∈ ((offsetsFrom 0 transcriptData).map Prod.snd) := List.mem_map_of_mem _ he
  rw [offsetsFrom_snd transcriptData 0] at hmem
  obtain ⟨s, hs, heq⟩ := List.mem_map.mp hmem
  rw [← heq]
  exact hnn s hs

/-- C3: every chunk emitted by `chunk_transcript` has `chunk_index` equal to
the position of its piece in the raw splitter output (skipped pieces still
consume an index slot), an id of the form
`{videoId}_{index}_{8-character suffix}` (the suffix is the first 8 characters
of the uuid4 string drawn for that index; uuid4 strings have 36 characters, so
the suffix has exactly 8), and a source URL
`https://www.youtube.com/watch?v={videoId}&t={floor(startTime)}s` where its
start time is the timestamp resolved for an actual occurrence position of the
chunk's text in the full transcript text. -/
theorem C3_chunk_metadata (uuids : ℕ → String) (split : String → List String)
    (videoId : String) (transcriptData : List TranscriptSegment)
    (huuid : ∀ i, 8 ≤ (uuids i).length)
    (hnn : ∀ s ∈ transcriptData, 0 ≤ s.start) :
    ∀ doc ∈ chunkTranscript uuids split videoId transcriptData,
      ∃ j startIndex,
        (split (createTextMap transcriptData).1).get? j = some doc.text_content
        ∧ doc.chunk_index = j
        ∧ doc.id = videoId ++ "_" ++ toString j ++ "_" ++ strTake (uuids j) 8
        ∧ (strTake (uuids j) 8).length = 8
        ∧ doc.video_id = videoId
        ∧ occursAtB doc.text_content.toList ((createTextMap transcriptData).1).toList
            startIndex = true
        ∧ doc.start_time = findTimestampForChunk (startIndex : ℤ) (createTextMap transcriptData).2
        ∧ 0 ≤ doc.start_time
        ∧ doc.source = "https://www.youtube.com/watch?v=" ++ videoId ++ "&t="
            ++ toString ⌊doc.start_time⌋ ++ "s" := by
  intro doc hdoc
  by_cases htd : transcriptData = []
  · rw [htd] at hdoc
    simp [chunkTranscript] at hdoc
  · simp only [chunkTranscript, if_neg htd] at hdoc
    obtain ⟨j, s, h1, h2, h3, h4, h5, h6, h7⟩ :=
      chunkLoop_mem_spec videoId uuids (createTextMap transcriptData).1
        (createTextMap transcriptData).2 (split (createTextMap transcriptData).1) 0 0 doc hdoc
    have hnneg : 0 ≤ doc.start_time := by
      rw [h6]
      exact findTimestampForChunk_nonneg _ (createTextMap_snd_nonneg transcriptData hnn) _
    refine ⟨j, s, h1, by simpa using h2, by simpa using h3, ?_, h4, h5, h6, hnneg, ?_⟩
    · rw [strTake_length]
      have := huuid j
      omega
    · rw [h7, pyInt_eq_floor _ hnneg]

/-- C3 witness: on the transcript `[("hi", 0)]` with a splitter that returns
the whole text and a fixed 8-character uuid, the emitted document carries all
the claimed metadata. -/
theorem C3_chunk_metadata_witness :
    (∀ i : ℕ, 8 ≤ (((fun _ => "abcdefgh") : ℕ → String) i).length)
    ∧ (∀ s ∈ ([⟨"hi", 0⟩] : List TranscriptSegment), 0 ≤ s.start)
    ∧ ({ id := "v_0_abcdefgh", values := [], video_id := "v", text_content := "hi ",
         start_time := 0, chunk_index := 0,
         source := "https://www.youtube.com/watch?v=v&t=0s" } : ChunkDoc)
        ∈ chunkTranscript (fun _ => "abcdefgh") (fun t => [t]) "v" [⟨"hi", 0⟩]
    ∧ ∃ j startIndex,
        ((fun t => [t]) ((createTextMap [⟨"hi", 0⟩]).1) : List String).get? j
            = some ({ id := "v_0_abcdefgh", values := [], video_id := "v",
                      text_content := "hi ", start_time := 0, chunk_index := 0,
                      source := "https://www.youtube.com/watch?v=v&t=0s" } : ChunkDoc).text_content
          ∧ ({ id := "v_0_abcdefgh", values := [], video_id := "v", text_content := "hi ",
               start_time := 0, chunk_index := 0,
               source := "https://www.youtube.com/watch?v=v&t=0s" } : ChunkDoc).chunk_index = j
          ∧ ({ id := "v_0_abcdefgh", values := [], video_id := "v", text_content := "hi ",
               start_time := 0, chunk_index := 0,
               source := "https://www.youtube.com/watch?v=v&t=0s" } : ChunkDoc).id
              = "v" ++ "_" ++ toString j ++ "_" ++ strTake (((fun _ => "abcdefgh") : ℕ → String) j) 8
          ∧ (strTake (((fun _ => "abcdefgh") : ℕ → String) j) 8).length = 8
          ∧ ({ id := "v_0_abcdefgh", values := [], video_id := "v", text_content := "hi ",
               start_time := 0, chunk_index := 0,
               source := "https://www.youtube.com/watch?v=v&t=0s" } : ChunkDoc).video_id = "v"
          ∧ occursAtB ("hi " : String).toList (((createTextMap [⟨"hi", 0⟩]).1).toList)
              startIndex = true
          ∧ (0 : ℚ) = findTimestampForChunk (startIndex : ℤ) (createTextMap [⟨"hi", 0⟩]).2
          ∧ (0 : ℚ) ≤ 0
          ∧ ({ id := "v_0_abcdefgh", values := [], video_id := "v", text_content := "hi ",
               start_time := 0, chunk_index := 0,
               source := "https://www.youtube.com/watch?v=v&t=0s" } : ChunkDoc).source
              = "https://www.youtube.com/watch?v=" ++ "v" ++ "&t=" ++ toString (⌊(0 : ℚ)⌋) ++ "s" := by
  refine ⟨fun i => by show 8 ≤ ("abcdefgh" : String).length; decide, by decide, by decide, ?_⟩
  have h := C3_chunk_metadata (fun _ => "abcdefgh") (fun t => [t]) "v" [⟨"hi", 0⟩]
    (fun i => by show 8 ≤ ("abcdefgh" : String).length; decide) (by decide)
    { id := "v_0_abcdefgh", values := [], video_id := "v", text_content := "hi ",
      start_time := 0, chunk_index := 0,
      source := "https://www.youtube.com/watch?v=v&t=0s" } (by decide)
  exact h

/-- C4: `chunk_transcript` is total and fails softly: it returns the empty
list on an empty segment list; for every non-empty input, the emitted chunk
texts are exactly the raw pieces that occur somewhere in the full text
(pieces whose start offset cannot be located — searching from the cursor and
then retrying from position 0 — are skipped, not fatal); in particular when
every raw piece fails to locate, the result is the empty list. -/
theorem C4_chunk_transcript_soft_failure (uuids : ℕ → String) (split : String → List String)
    (videoId : String) :
    chunkTranscript uuids split videoId [] = []
    ∧ (∀ transcriptData, transcriptData ≠ [] →
        (chunkTranscript uuids split videoId transcriptData).map (fun d => d.text_content)
          = (split (createTextMap transcriptData).1).filter
              (fun p => (findFrom ((createTextMap transcriptData).1).toList p.toList 0).isSome))
    ∧ (∀ transcriptData,
        (∀ p ∈ split (createTextMap transcriptData).1,
          findFrom ((createTextMap transcriptData).1).toList p.toList 0 = none) →
        chunkTranscript uuids split videoId transcriptData = []) := by
  have hmain : ∀ transcriptData, transcriptData ≠ [] →
      (chunkTranscript uuids split videoId transcriptData).map (fun d => d.text_content)
        = (split (createTextMap transcriptData).1).filter
            (fun p => (findFrom ((createTextMap transcriptData).1).toList p.toList 0).isSome) := by
    intro td htd
    simp only [chunkTranscript, if_neg htd]
    exact chunkLoop_map_text videoId uuids (createTextMap td).1 (createTextMap td).2
      (split (createTextMap td).1) 0 0
  refine ⟨by simp [chunkTranscript], hmain, ?_⟩
  intro td hall
  by_cases htd : td = []
  · rw [htd]; simp [chunkTranscript]
  · have h := hmain td htd
    have hfilter : (split (createTextMap td).1).filter
        (fun p => (findFrom ((createTextMap td).1).toList p.toList 0).isSome) = [] := by
      rw [List.filter_eq_nil_iff]
      intro p hp
      rw [hall p hp]
      simp
    rw [hfilter] at h
    exact List.map_eq_nil_iff.mp h

/-- C4 witness: on the transcript `[("hi", 0)]` with a splitter returning the
full text plus an unmappable piece `"zz"`, the unmappable piece is skipped and
only the mappable one survives. -/
theorem C4_chunk_transcript_soft_failure_witness :
    (([⟨"hi", 0⟩] : List TranscriptSegment) ≠ [])
    ∧ (chunkTranscript (fun _ => "abcdefgh") (fun t => [t, "zz"]) "v" [⟨"hi", 0⟩]).map
          (fun d => d.text_content)
        = ((fun t => [t, "zz"]) ((createTextMap [⟨"hi", 0⟩]).1) : List String).filter
            (fun p => (findFrom ((createTextMap [⟨"hi", 0⟩]).1).toList p.toList 0).isSome) := by
  refine ⟨by decide, ?_⟩
  exact (C4_chunk_transcript_soft_failure (fun _ => "abcdefgh") (fun t => [t, "zz"]) "v").2.1
    [⟨"hi", 0⟩] (by decide)

/-! Embedding of `src/services/summary_service.py` (`SummaryService`). -/

/-- `SummaryService.MAX_CHUNKS_PER_BATCH`. -/
def MAX_CHUNKS_PER_BATCH : ℕ := 100

/-- `SummaryService.MAX_CONTEXT_CHARS`. -/
def MAX_CONTEXT_CHARS : ℕ := 60000

/-- A chunk as fetched back from the vector index: the metadata fields the
summary service reads (`text_content`, `start_time`). -/
structure MChunk where
  text_content : String
  start_time : ℚ
deriving Repr, DecidableEq

/-- Total character count over the chunk texts (the `total_chars` sum in
`generate_full_summary`). -/
def totalChars (chunks : List MChunk) : ℕ :=
  (chunks.map (fun c => c.text_content.length)).sum

/-- `SummaryService._chunks_to_transcript`: non-empty chunk texts joined by a
double newline. -/
def chunksToTranscript (chunks : List MChunk) : String :=
  String.intercalate "\n\n"
    ((chunks.filter (fun c => !(c.text_content = ""))).map (fun c => c.text_content))

/-- `SummaryService.SUMMARY_PROMPT` with the transcript formatted in. -/
def summaryPrompt (transcript : String) : String :=
  "You are a professional video content summarizer.\n\nBased on the following video transcript segments, provide a comprehensive summary of the video.\n\nGuidelines:\n- Capture ALL main topics and key points discussed\n- Organize information logically\n- Use bullet points for clarity where appropriate\n- Include important details, examples, and conclusions\n- Be thorough but concise\n- Write in clear, professional language\n\n--- VIDEO TRANSCRIPT ---\n"
    ++ transcript ++ "\n--- END TRANSCRIPT ---\n\nProvide a comprehensive summary:"

/-- `SummaryService.HIERARCHICAL_SUMMARY_PROMPT` with the partial summaries
formatted in. -/
def hierarchicalSummaryPrompt (summaries : String) : String :=
  "You are a professional video content summarizer.\n\nThe following are summaries of different parts of a long video. Combine them into one cohesive, comprehensive summary.\n\nGuidelines:\n- Merge related topics that appear in multiple parts\n- Eliminate redundancy while preserving all unique information\n- Organize the final summary logically\n- Maintain a natural flow\n\n--- PARTIAL SUMMARIES ---\n"
    ++ summaries ++ "\n--- END SUMMARIES ---\n\nProvide the unified comprehensive summary:"

/-- One `generate_content` invocation, tagged with the wrapper that issued it:
`_summarize_batch` or `_combine_summaries`. -/
inductive LLMCall where
  | summarize (prompt : String)
  | merge (prompt : String)
deriving Repr, DecidableEq

def isSummarizeCall : LLMCall → Bool
  | .summarize _ => true
  | .merge _ => false

def isMergeCall : LLMCall → Bool
  | .summarize _ => false
  | .merge _ => true

/-- Number of batch-summarization LLM calls in a call log. -/
def countSummarizeCalls (calls : List LLMCall) : ℕ := calls.countP isSummarizeCall

/-- Number of merge (combine-summaries) LLM calls in a call log. -/
def countMergeCalls (calls : List LLMCall) : ℕ := calls.countP isMergeCall

/-- `SummaryService._summarize_batch`: one LLM call on the summary prompt over
the batch transcript.  Returns the response together with the issued call. -/
def summarizeBatch (llm : String → String) (chunks : List MChunk) : String × List LLMCall :=
  let prompt := summaryPrompt (chunksToTranscript chunks)
  (llm prompt, [LLMCall.summarize prompt])

/-- `SummaryService._combine_summaries`: one LLM call on the hierarchical
prompt over the numbered partial summaries. -/
def combineSummaries (llm : String → String) (summaries : List String) : String × List LLMCall :=
  let combined := String.intercalate "\n\n---\n\n"
    (summaries.enum.map (fun p => "Part " ++ toString (p.1 + 1) ++ ":\n" ++ p.2))
  let prompt := hierarchicalSummaryPrompt combined
  (llm prompt, [LLMCall.merge prompt])

/-- The accumulation loop of `SummaryService._batch_chunks`: if adding the
next chunk would exceed the character budget and the current batch is
non-empty, flush it; append the chunk; if the batch then reaches the count
cap, flush it too; finally flush the trailing batch. -/
def batchChunksAux : List MChunk → List (List MChunk) → List MChunk → ℕ → List (List MChunk)
  | [], batches, currentBatch, _ =>
      if currentBatch.isEmpty then batches else batches ++ [currentBatch]
  | chunk :: rest, batches, currentBatch, currentChars =>
      let chunkChars := chunk.text_content.length
      let flushed :=
        if MAX_CONTEXT_CHARS < currentChars + chunkChars ∧ ¬ currentBatch.isEmpty
        then (batches ++ [currentBatch], ([] : List MChunk), 0)
        else (batches, currentBatch, currentChars)
      let newBatch := flushed.2.1 ++ [chunk]
      let newChars := flushed.2.2 + chunkChars
      if MAX_CHUNKS_PER_BATCH ≤ newBatch.length
      then batchChunksAux rest (flushed.1 ++ [newBatch]) [] 0
      else batchChunksAux rest flushed.1 newBatch newChars

/-- `SummaryService._batch_chunks`. -/
def batchChunks (chunks : List MChunk) : List (List MChunk) :=
  batchChunksAux chunks [] [] 0

/-- A citation source entry as returned by the summary / retrieval services. -/
structure SourceEntry where
  text : String
  start_time : ℚ
  score : ℚ
deriving Repr, DecidableEq

/-- The source-sampling step of `SummaryService.generate_full_summary`
(step 4): sample indices `0, n//4, n//2, 3n//4, n-1`, keep the in-range ones,
truncate each text to 200 characters and append an ellipsis, placeholder
score 1. -/
def sampleSources (allChunks : List MChunk) : List SourceEntry :=
  let n := allChunks.length
  let sampleIndices : List ℤ :=
    [0, (n : ℤ) / 4, (n : ℤ) / 2, 3 * (n : ℤ) / 4, (n : ℤ) - 1]
  (sampleIndices.filter (fun idx => decide (0 ≤ idx) && decide (idx < (n : ℤ)))).map
    (fun idx =>
      let metadata := allChunks.getD idx.toNat { text_content := "", start_time := 0 }
      { text := strTake metadata.text_content 200 ++ "...",
        start_time := metadata.start_time,
        score := 1 })

/-- `SummaryService.generate_full_summary`, taking the already-fetched,
chronologically sorted chunk list as input (fetching is the external Pinecone
collaborator).  Returns the summary, the sampled sources, and the log of LLM
calls issued. -/
def generateFullSummary (llm : String → String) (allChunks : List MChunk) :
    String × List SourceEntry × List LLMCall :=
  if allChunks.isEmpty then ("", [], [])
  else
    let res :=
      if totalChars allChunks ≤ MAX_CONTEXT_CHARS ∧ allChunks.length ≤ MAX_CHUNKS_PER_BATCH
      then summarizeBatch llm allChunks
      else
        let batches := batchChunks allChunks
        let results := batches.map (summarizeBatch llm)
        let batchSummaries := results.map Prod.fst
        let calls := (results.map Prod.snd).flatten
        if batchSummaries.length = 1 then (batchSummaries.headD "", calls)
        else
          let merged := combineSummaries llm batchSummaries
          (merged.1, calls ++ merged.2)
    (res.1, sampleSources allChunks, res.2)

theorem totalChars_append (l₁ l₂ : List MChunk) :
    totalChars (l₁ ++ l₂) = totalChars l₁ + totalChars l₂ := by
  simp [totalChars]

/-- Loop invariant of `_batch_chunks`: provided the running character counter
matches the running batch, the running batch is under the count cap and obeys
the oversize-only-if-singleton rule, and all flushed batches are well formed,
every batch in the final result is non-empty, at most `MAX_CHUNKS_PER_BATCH`
long, and over the character budget only if it is a single oversized chunk;
and the concatenation of the result extends the flushed batches by the
running batch and the remaining input. -/
theorem batchChunksAux_spec :
    ∀ (chunks : List MChunk) (batches : List (List MChunk)) (cur : List MChunk) (chars : ℕ),
      chars = totalChars cur →
      cur.length < MAX_CHUNKS_PER_BATCH →
      (2 ≤ cur.length → totalChars cur ≤ MAX_CONTEXT_CHARS) →
      (∀ b ∈ batches, b ≠ [] ∧ b.length ≤ MAX_CHUNKS_PER_BATCH ∧
        (MAX_CONTEXT_CHARS < totalChars b →
          ∃ c, b = [c] ∧ MAX_CONTEXT_CHARS < c.text_content.length)) →
      (∀ b ∈ batchChunksAux chunks batches cur chars,
        b ≠ [] ∧ b.length ≤ MAX_CHUNKS_PER_BATCH ∧
        (MAX_CONTEXT_CHARS < totalChars b →
          ∃ c, b = [c] ∧ MAX_CONTEXT_CHARS < c.text_content.length))
      ∧ (batchChunksAux chunks batches cur chars).flatten = batches.flatten ++ cur ++ chunks := by
  intro chunks
  induction chunks with
  | nil =>
      intro batches cur chars hchars hlen hover hbatches
      by_cases hcur : cur.isEmpty
      · have hc : cur = [] := List.isEmpty_iff.mp hcur
        simp only [batchChunksAux, if_pos hcur]
        exact ⟨hbatches, by simp [hc]⟩
      · have hc : cur ≠ [] := by
          intro hq
          rw [hq] at hcur
          simp at hcur
        simp only [batchChunksAux, if_neg hcur]
        constructor
        · intro b hb
          rcases List.mem_append.mp hb with hb | hb
          · exact hbatches b hb
          · have hbc : b = cur := by simpa using hb
            subst hbc
            refine ⟨hc, by omega, ?_⟩
            intro hbig
            match hcur2 : b, hc with
            | [c], _ =>
                refine ⟨c, rfl, ?_⟩
                simpa [totalChars] using hbig
            | c₁ :: c₂ :: tl, _ =>
                exfalso
                have h2 : 2 ≤ (c₁ :: c₂ :: tl).length := by simp only [List.length_cons]; omega
                have := hover h2
                omega
        · simp
  | cons c rest ih =>
      intro batches cur chars hchars hlen hover hbatches
      by_cases hflush : MAX_CONTEXT_CHARS < chars + c.text_content.length ∧ ¬ cur.isEmpty
      · -- character-budget flush: `cur` is emitted, the new batch starts as `[c]`
        have hcne : cur ≠ [] := by
          intro hq
          rw [hq] at hflush
          simp at hflush
        have hbatches' : ∀ b ∈ batches ++ [cur], b ≠ [] ∧ b.length ≤ MAX_CHUNKS_PER_BATCH ∧
            (MAX_CONTEXT_CHARS < totalChars b →
              ∃ x, b = [x] ∧ MAX_CONTEXT_CHARS < x.text_content.length) := by
          intro b hb
          rcases List.mem_append.mp hb with hb | hb
          · exact hbatches b hb
          · have hbc : b = cur := by simpa using hb
            subst hbc
            refine ⟨hcne, by omega, ?_⟩
            intro hbig
            match hcur2 : b, hcne with
            | [x], _ =>
                refine ⟨x, rfl, ?_⟩
                simpa [totalChars] using hbig
            | x₁ :: x₂ :: tl, _ =>
                exfalso
                have h2 : 2 ≤ (x₁ :: x₂ :: tl).length := by simp only [List.length_cons]; omega
                have := hover h2
                omega
        have hcap : ¬ (MAX_CHUNKS_PER_BATCH ≤ (([] : List MChunk) ++ [c]).length) := by
          simp [MAX_CHUNKS_PER_BATCH]
        simp only [batchChunksAux, if_pos hflush, if_neg hcap]
        obtain ⟨hall, hjoin⟩ := ih (batches ++ [cur]) ([] ++ [c]) (0 + c.text_content.length)
          (by simp [totalChars]) (by simp [MAX_CHUNKS_PER_BATCH]) (by simp [totalChars]) hbatches'
        refine ⟨hall, ?_⟩
        rw [hjoin]
        simp
      · -- no character flush: `c` is appended to the running batch
        by_cases hcap : MAX_CHUNKS_PER_BATCH ≤ (cur ++ [c]).length
        · -- count-cap flush: the extended batch is emitted immediately
          have hfits : totalChars (cur ++ [c]) ≤ MAX_CONTEXT_CHARS ∨ cur = [] := by
            by_cases hce : cur.isEmpty
            · exact Or.inr (List.isEmpty_iff.mp hce)
            · left
              have : ¬ MAX_CONTEXT_CHARS < chars + c.text_content.length := by
                intro hq
                exact hflush ⟨hq, hce⟩
              rw [totalChars_append, ← hchars]
              simpa [totalChars] using this
          have hbatches' : ∀ b ∈ batches ++ [cur ++ [c]],
              b ≠ [] ∧ b.length ≤ MAX_CHUNKS_PER_BATCH ∧
              (MAX_CONTEXT_CHARS < totalChars b →
                ∃ x, b = [x] ∧ MAX_CONTEXT_CHARS < x.text_content.length) := by
            intro b hb
            rcases List.mem_append.mp hb with hb | hb
            · exact hbatches b hb
            · have hbc : b = cur ++ [c] := by simpa using hb
              subst hbc
              refine ⟨by simp, by simp; omega, ?_⟩
              intro hbig
              rcases hfits with hfit | hnil
              · omega
              · subst hnil
                refine ⟨c, by simp, ?_⟩
                simpa [totalChars] using hbig
          simp only [batchChunksAux, if_neg hflush, if_pos hcap]
          obtain ⟨hall, hjoin⟩ := ih (batches ++ [cur ++ [c]]) [] 0
            (by simp [totalChars]) (by simp [MAX_CHUNKS_PER_BATCH]) (by simp [totalChars])
            hbatches'
          refine ⟨hall, ?_⟩
          rw [hjoin]
          simp
        · -- continue accumulating
          have hover' : 2 ≤ (cur ++ [c]).length → totalChars (cur ++ [c]) ≤ MAX_CONTEXT_CHARS := by
            intro h2
            have hce : ¬ cur.isEmpty := by
              intro hq
              have : cur = [] := List.isEmpty_iff.mp hq
              rw [this] at h2
              simp at h2
            have : ¬ MAX_CONTEXT_CHARS < chars + c.text_content.length := by
              intro hq
              exact hflush ⟨hq, hce⟩
            rw [totalChars_append, ← hchars]
            simpa [totalChars] using this
          simp only [batchChunksAux, if_neg hflush, if_neg hcap]
          obtain ⟨hall, hjoin⟩ := ih batches (cur ++ [c]) (chars + c.text_content.length)
            (by rw [totalChars_append, hchars]; simp [totalChars])
            (by simp at hcap ⊢; omega) hover' hbatches
          refine ⟨hall, ?_⟩
          rw [hjoin]
          simp

theorem batchChunks_props (chunks : List MChunk) :
    (∀ b ∈ batchChunks chunks,
      b ≠ [] ∧ b.length ≤ MAX_CHUNKS_PER_BATCH ∧
      (MAX_CONTEXT_CHARS < totalChars b →
        ∃ c, b = [c] ∧ MAX_CONTEXT_CHARS < c.text_content.length))
    ∧ (batchChunks chunks).flatten = chunks := by
  obtain ⟨h1, h2⟩ := batchChunksAux_spec chunks [] [] 0 (by simp [totalChars])
    (by simp [MAX_CHUNKS_PER_BATCH]) (by simp [totalChars]) (by simp)
  exact ⟨h1, by simpa using h2⟩

theorem batchChunks_ne_nil (chunks : List MChunk) (h : chunks ≠ []) :
    batchChunks chunks ≠ [] := by
  intro hq
  have := (batchChunks_props chunks).2
  rw [hq] at this
  simp at this
  exact h this

/-- C6: `_batch_chunks` produces no batch on the empty chunk list; every
produced batch is non-empty; the concatenation of the batches in order equals
the input list; every batch has at most `MAX_CHUNKS_PER_BATCH` (100) chunks;
and a batch's total character count exceeds `MAX_CONTEXT_CHARS` (60000) only
when it is a single chunk whose own text exceeds the budget. -/
theorem C6_batch_partition_invariants (chunks : List MChunk) :
    batchChunks ([] : List MChunk) = []
    ∧ (∀ b ∈ batchChunks chunks, b ≠ [])
    ∧ (batchChunks chunks).flatten = chunks
    ∧ (∀ b ∈ batchChunks chunks, b.length ≤ MAX_CHUNKS_PER_BATCH)
    ∧ (∀ b ∈ batchChunks chunks, MAX_CONTEXT_CHARS < totalChars b →
        ∃ c, b = [c] ∧ MAX_CONTEXT_CHARS < c.text_content.length) := by
  obtain ⟨hp, hj⟩ := batchChunks_props chunks
  exact ⟨rfl, fun b hb => (hp b hb).1, hj, fun b hb => (hp b hb).2.1,
    fun b hb => (hp b hb).2.2⟩

/-- C6 witness: on two small chunks, the single produced batch is non-empty,
within both caps, and the partition concatenates back to the input. -/
theorem C6_batch_partition_invariants_witness :
    ([⟨"a", 0⟩, ⟨"b", 1⟩] : List MChunk) ∈ batchChunks [⟨"a", 0⟩, ⟨"b", 1⟩]
    ∧ ([⟨"a", 0⟩, ⟨"b", 1⟩] : List MChunk) ≠ []
    ∧ ([⟨"a", 0⟩, ⟨"b", 1⟩] : List MChunk).length ≤ MAX_CHUNKS_PER_BATCH
    ∧ (batchChunks [⟨"a", 0⟩, ⟨"b", 1⟩]).flatten = [⟨"a", 0⟩, ⟨"b", 1⟩] := by
  refine ⟨by decide, ?_, ?_, ?_⟩
  · exact (C6_batch_partition_invariants [⟨"a", 0⟩, ⟨"b", 1⟩]).2.1 _ (by decide)
  · exact (C6_batch_partition_invariants [⟨"a", 0⟩, ⟨"b", 1⟩]).2.2.2.1 _ (by decide)
  · exact (C6_batch_partition_invariants [⟨"a", 0⟩, ⟨"b", 1⟩]).2.2.1

theorem flatten_map_singleton {α β : Type} (f : α → β) (l : List α) :
    (l.map (fun x => [f x])).flatten = l.map f := by
  induction l with
  | nil => simp
  | cons a t ih => simp [ih]

/-- C5: strategy selection and LLM call counts in `generate_full_summary`.
For a non-empty chunk list, when the total character count is within the
context budget and the chunk count within the batch cap, exactly one
summarization call and no merge call occur; otherwise one summarization call
occurs per batch of `_batch_chunks`, plus exactly one merge call when there
is more than one batch, while with exactly one batch no merge call occurs and
that batch's summary is the final result. -/
theorem C5_summary_strategy (llm : String → String) (chunks : List MChunk)
    (h : chunks ≠ []) :
    ((totalChars chunks ≤ MAX_CONTEXT_CHARS ∧ chunks.length ≤ MAX_CHUNKS_PER_BATCH) →
      countSummarizeCalls (generateFullSummary llm chunks).2.2 = 1
      ∧ countMergeCalls (generateFullSummary llm chunks).2.2 = 0)
    ∧ (¬ (totalChars chunks ≤ MAX_CONTEXT_CHARS ∧ chunks.length ≤ MAX_CHUNKS_PER_BATCH) →
      countSummarizeCalls (generateFullSummary llm chunks).2.2 = (batchChunks chunks).length
      ∧ 1 ≤ (batchChunks chunks).length
      ∧ (1 < (batchChunks chunks).length →
          countMergeCalls (generateFullSummary llm chunks).2.2 = 1)
      ∧ ((batchChunks chunks).length = 1 →
          countMergeCalls (generateFullSummary llm chunks).2.2 = 0
          ∧ (generateFullSummary llm chunks).1
              = (summarizeBatch llm ((batchChunks chunks).headD [])).1)) := by
  have hne : ¬ (chunks.isEmpty = true) := by
    intro hq
    exact h (List.isEmpty_iff.mp hq)
  have hBne : batchChunks chunks ≠ [] := batchChunks_ne_nil chunks h
  have hB1 : 1 ≤ (batchChunks chunks).length := by
    cases hB : batchChunks chunks with
    | nil => exact absurd hB hBne
    | cons b t => simp
  by_cases hsmall : totalChars chunks ≤ MAX_CONTEXT_CHARS ∧ chunks.length ≤ MAX_CHUNKS_PER_BATCH
  · have hgen : generateFullSummary llm chunks
        = ((summarizeBatch llm chunks).1, sampleSources chunks, (summarizeBatch llm chunks).2) := by
      simp only [generateFullSummary, if_neg hne, if_pos hsmall]
    refine ⟨fun _ => ?_, fun hq => absurd hsmall hq⟩
    rw [hgen]
    simp [summarizeBatch, countSummarizeCalls, countMergeCalls, isSummarizeCall, isMergeCall]
  · refine ⟨fun hq => absurd hq hsmall, fun _ => ?_⟩
    have hcalls : (((batchChunks chunks).map (summarizeBatch llm)).map Prod.snd).flatten
        = (batchChunks chunks).map
            (fun b => LLMCall.summarize (summaryPrompt (chunksToTranscript b))) := by
      rw [List.map_map]
      have hcomp : (Prod.snd ∘ summarizeBatch llm)
          = fun b => [LLMCall.summarize (summaryPrompt (chunksToTranscript b))] := rfl
      rw [hcomp]
      exact flatten_map_singleton _ _
    have hcountS : countSummarizeCalls
        ((((batchChunks chunks).map (summarizeBatch llm)).map Prod.snd).flatten)
        = (batchChunks chunks).length := by
      rw [hcalls]
      unfold countSummarizeCalls
      rw [List.countP_eq_length.mpr]
      · simp
      · intro a ha
        obtain ⟨b, _, rfl⟩ := List.mem_map.mp ha
        rfl
    have hcountM : countMergeCalls
        ((((batchChunks chunks).map (summarizeBatch llm)).map Prod.snd).flatten) = 0 := by
      rw [hcalls]
      unfold countMergeCalls
      rw [List.countP_eq_zero.mpr]
      intro a ha
      obtain ⟨b, _, rfl⟩ := List.mem_map.mp ha
      simp [isMergeCall]
    have hlenS : (((batchChunks chunks).map (summarizeBatch llm)).map Prod.fst).length
        = (batchChunks chunks).length := by simp
    by_cases hone : (((batchChunks chunks).map (summarizeBatch llm)).map Prod.fst).length = 1
    · have hgen : generateFullSummary llm chunks
          = ((((batchChunks chunks).map (summarizeBatch llm)).map Prod.fst).headD "",
             sampleSources chunks,
             (((batchChunks chunks).map (summarizeBatch llm)).map Prod.snd).flatten) := by
        simp only [generateFullSummary, if_neg hne, if_neg hsmall, if_pos hone]
      have hBlen : (batchChunks chunks).length = 1 := by rw [← hlenS]; exact hone
      obtain ⟨b, hb⟩ := List.length_eq_one.mp hBlen
      rw [hgen]
      refine ⟨hcountS, hB1, fun hgt => by omega, fun _ => ⟨hcountM, ?_⟩⟩
      rw [hb]
      simp
    · have hgen : generateFullSummary llm chunks
          = ((combineSummaries llm
                (((batchChunks chunks).map (summarizeBatch llm)).map Prod.fst)).1,
             sampleSources chunks,
             ((((batchChunks chunks).map (summarizeBatch llm)).map Prod.snd).flatten)
               ++ (combineSummaries llm
                    (((batchChunks chunks).map (summarizeBatch llm)).map Prod.fst)).2) := by
        simp only [generateFullSummary, if_neg hne, if_neg hsmall, if_neg hone]
      have hBlen : (batchChunks chunks).length ≠ 1 := by rw [← hlenS]; exact hone
      rw [hgen]
      refine ⟨?_, hB1, fun _ => ?_, fun heq => absurd heq hBlen⟩
      · unfold countSummarizeCalls at hcountS ⊢
        rw [List.countP_append, hcountS]
        simp [combineSummaries, isSummarizeCall]
      · unfold countMergeCalls at hcountM ⊢
        rw [List.countP_append, hcountM]
        simp [combineSummaries, isMergeCall]

/-- C5 witness: a single tiny chunk falls in the single-pass branch with one
summarization call and no merge call. -/
theorem C5_summary_strategy_witness :
    ([⟨"a", 0⟩] : List MChunk) ≠ []
    ∧ (totalChars [⟨"a", 0⟩] ≤ MAX_CONTEXT_CHARS
        ∧ ([⟨"a", 0⟩] : List MChunk).length ≤ MAX_CHUNKS_PER_BATCH)
    ∧ countSummarizeCalls (generateFullSummary (fun _ => "") [⟨"a", 0⟩]).2.2 = 1
    ∧ countMergeCalls (generateFullSummary (fun _ => "") [⟨"a", 0⟩]).2.2 = 0 := by
  have h := (C5_summary_strategy (fun _ => "") [⟨"a", 0⟩] (by decide)).1 (by decide)
  exact ⟨by decide, by decide, h.1, h.2⟩

/-- On a non-empty chunk list all five sample indices are in range, so the
bounds filter keeps them all: the sources are exactly the five sampled
entries (with repetitions when the indices coincide). -/
theorem sampleSources_eq (chunks : List MChunk) (h : chunks ≠ []) :
    sampleSources chunks
      = [0, chunks.length / 4, chunks.length / 2, 3 * chunks.length / 4,
         chunks.length - 1].map
          (fun i => { text := strTake (chunks.getD i ⟨"", 0⟩).text_content 200 ++ "...",
                      start_time := (chunks.getD i ⟨"", 0⟩).start_time,
                      score := 1 }) := by
  have hn : 1 ≤ chunks.length := List.length_pos.mpr h
  show (([(0 : ℤ), (chunks.length : ℤ) / 4, (chunks.length : ℤ) / 2,
      3 * (chunks.length : ℤ) / 4, (chunks.length : ℤ) - 1].filter
        (fun idx => decide (0 ≤ idx) && decide (idx < (chunks.length : ℤ)))).map
      (fun idx =>
        ({ text := strTake (chunks.getD idx.toNat ⟨"", 0⟩).text_content 200 ++ "...",
           start_time := (chunks.getD idx.toNat ⟨"", 0⟩).start_time,
           score := 1 } : SourceEntry)))
    = [0, chunks.length / 4, chunks.length / 2, 3 * chunks.length / 4,
       chunks.length - 1].map
        (fun i => ({ text := strTake (chunks.getD i ⟨"", 0⟩).text_content 200 ++ "...",
                     start_time := (chunks.getD i ⟨"", 0⟩).start_time,
                     score := 1 } : SourceEntry))
  have e1 : ((chunks.length : ℤ)) / 4 = ((chunks.length / 4 : ℕ) : ℤ) := by omega
  have e2 : ((chunks.length : ℤ)) / 2 = ((chunks.length / 2 : ℕ) : ℤ) := by omega
  have e3 : 3 * ((chunks.length : ℤ)) / 4 = ((3 * chunks.length / 4 : ℕ) : ℤ) := by omega
  have e4 : ((chunks.length : ℤ)) - 1 = ((chunks.length - 1 : ℕ) : ℤ) := by omega
  rw [e1, e2, e3, e4]
  have hkeep : ∀ (k : ℕ), k < chunks.length →
      (decide ((0 : ℤ) ≤ (k : ℤ)) && decide ((k : ℤ) < (chunks.length : ℤ))) = true := by
    intro k hk
    simp only [Bool.and_eq_true, decide_eq_true_eq]
    constructor
    · exact Int.natCast_nonneg k
    · exact_mod_cast hk
  have hfilt : ([(0 : ℤ), ((chunks.length / 4 : ℕ) : ℤ), ((chunks.length / 2 : ℕ) : ℤ),
      ((3 * chunks.length / 4 : ℕ) : ℤ), ((chunks.length - 1 : ℕ) : ℤ)].filter
        (fun idx => decide (0 ≤ idx) && decide (idx < (chunks.length : ℤ))))
      = [(0 : ℤ), ((chunks.length / 4 : ℕ) : ℤ), ((chunks.length / 2 : ℕ) : ℤ),
         ((3 * chunks.length / 4 : ℕ) : ℤ), ((chunks.length - 1 : ℕ) : ℤ)] := by
    rw [List.filter_eq_self]
    intro a ha
    simp only [List.mem_cons, List.not_mem_nil, or_false] at ha
    rcases ha with rfl | rfl | rfl | rfl | rfl
    · simp only [Bool.and_eq_true, decide_eq_true_eq]
      exact ⟨le_refl _, by exact_mod_cast hn⟩
    · exact hkeep _ (by omega)
    · exact hkeep _ (by omega)
    · exact hkeep _ (by omega)
    · exact hkeep _ (by omega)
  rw [hfilt]
  rfl

/-- C7 counterexample: the claim says the sources list has fewer than 5
entries when there are fewer than 5 chunks and that each text is truncated to
200 characters; but on a single chunk `("ab", 0)` the bounds check passes for
all five (coinciding) sample indices, so `generate_full_summary` returns 5
duplicate sources, and the entry text is the truncation with `"..."`
appended. -/
theorem C7_summary_sources_counterexample :
    ((generateFullSummary (fun _ => "") [⟨"ab", 0⟩]).2.1).length = 5
    ∧ ([(⟨"ab", 0⟩ : MChunk)].length < 5)
    ∧ ((generateFullSummary (fun _ => "") [⟨"ab", 0⟩]).2.1).getD 0 ⟨"", 0, 0⟩
        = { text := "ab...", start_time := 0, score := 1 } := by
  decide

/-- C7 amended: for every non-empty fetched chunk list of length `n`,
`generate_full_summary` returns sources taken at indices
`0, n/4, n/2, 3n/4, n-1` (integer division) of the chunk list, each entry's
text being the chunk text truncated to 200 characters with an appended
ellipsis and each carrying placeholder score 1.0; the sources list always has
length exactly 5 — the bounds check skips out-of-range indices, but for n ≥ 1
no sample index is out of range, so entries repeat when n < 5 instead of
being deduplicated. -/
theorem C7_summary_sources_amended (llm : String → String) (chunks : List MChunk)
    (h : chunks ≠ []) :
    ((generateFullSummary llm chunks).2.1).length = 5
    ∧ ∀ k, k < 5 →
        ∃ (i : ℕ) (hi : i < chunks.length),
          i = [0, chunks.length / 4, chunks.length / 2, 3 * chunks.length / 4,
               chunks.length - 1].getD k 0
          ∧ ((generateFullSummary llm chunks).2.1).getD k ⟨"", 0, 0⟩
              = { text := strTake (chunks.get ⟨i, hi⟩).text_content 200 ++ "...",
                  start_time := (chunks.get ⟨i, hi⟩).start_time,
                  score := 1 } := by
  have hne : ¬ (chunks.isEmpty = true) := by
    intro hq
    exact h (List.isEmpty_iff.mp hq)
  have hn : 1 ≤ chunks.length := List.length_pos.mpr h
  have hsrc : (generateFullSummary llm chunks).2.1 = sampleSources chunks := by
    simp only [generateFullSummary, if_neg hne]
  rw [hsrc, sampleSources_eq chunks h]
  constructor
  · rfl
  · intro k hk
    interval_cases k
    · refine ⟨0, by omega, rfl, ?_⟩
      show ({ text := strTake (chunks.getD 0 ⟨"", 0⟩).text_content 200 ++ "...",
              start_time := (chunks.getD 0 ⟨"", 0⟩).start_time, score := 1 } : SourceEntry) = _
      rw [getD_eq_get chunks ⟨"", 0⟩ 0 (by omega)]
    · refine ⟨chunks.length / 4, by omega, rfl, ?_⟩
      show ({ text := strTake (chunks.getD (chunks.length / 4) ⟨"", 0⟩).text_content 200 ++ "...",
              start_time := (chunks.getD (chunks.length / 4) ⟨"", 0⟩).start_time,
              score := 1 } : SourceEntry) = _
      rw [getD_eq_get chunks ⟨"", 0⟩ (chunks.length / 4) (by omega)]
    · refine ⟨chunks.length / 2, by omega, rfl, ?_⟩
      show ({ text := strTake (chunks.getD (chunks.length / 2) ⟨"", 0⟩).text_content 200 ++ "...",
              start_time := (chunks.getD (chunks.length / 2) ⟨"", 0⟩).start_time,
              score := 1 } : SourceEntry) = _
      rw [getD_eq_get chunks ⟨"", 0⟩ (chunks.length / 2) (by omega)]
    · refine ⟨3 * chunks.length / 4, by omega, rfl, ?_⟩
      show ({ text := strTake (chunks.getD (3 * chunks.length / 4) ⟨"", 0⟩).text_content 200
                ++ "...",
              start_time := (chunks.getD (3 * chunks.length / 4) ⟨"", 0⟩).start_time,
              score := 1 } : SourceEntry) = _
      rw [getD_eq_get chunks ⟨"", 0⟩ (3 * chunks.length / 4) (by omega)]
    · refine ⟨chunks.length - 1, by omega, rfl, ?_⟩
      show ({ text := strTake (chunks.getD (chunks.length - 1) ⟨"", 0⟩).text_content 200 ++ "...",
              start_time := (chunks.getD (chunks.length - 1) ⟨"", 0⟩).start_time,
              score := 1 } : SourceEntry) = _
      rw [getD_eq_get chunks ⟨"", 0⟩ (chunks.length - 1) (by omega)]

/-- C7 amended witness: on the six-chunk list the sources have length 5 and
the sample at position 1 is chunk 6/4 = 1. -/
theorem C7_summary_sources_amended_witness :
    (([⟨"c0", 0⟩, ⟨"c1", 1⟩, ⟨"c2", 2⟩, ⟨"c3", 3⟩, ⟨"c4", 4⟩, ⟨"c5", 5⟩] : List MChunk) ≠ [])
    ∧ ((generateFullSummary (fun _ => "")
          [⟨"c0", 0⟩, ⟨"c1", 1⟩, ⟨"c2", 2⟩, ⟨"c3", 3⟩, ⟨"c4", 4⟩, ⟨"c5", 5⟩]).2.1).length = 5
    ∧ ∃ (i : ℕ) (hi : i < ([⟨"c0", 0⟩, ⟨"c1", 1⟩, ⟨"c2", 2⟩, ⟨"c3", 3⟩, ⟨"c4", 4⟩,
          ⟨"c5", 5⟩] : List MChunk).length),
        i = [0, 6 / 4, 6 / 2, 3 * 6 / 4, 6 - 1].getD 1 0
        ∧ ((generateFullSummary (fun _ => "")
              [⟨"c0", 0⟩, ⟨"c1", 1⟩, ⟨"c2", 2⟩, ⟨"c3", 3⟩, ⟨"c4", 4⟩,
               ⟨"c5", 5⟩]).2.1).getD 1 ⟨"", 0, 0⟩
            = { text := strTake (([⟨"c0", 0⟩, ⟨"c1", 1⟩, ⟨"c2", 2⟩, ⟨"c3", 3⟩, ⟨"c4", 4⟩,
                  ⟨"c5", 5⟩] : List MChunk).get ⟨i, hi⟩).text_content 200 ++ "...",
                start_time := (([⟨"c0", 0⟩, ⟨"c1", 1⟩, ⟨"c2", 2⟩, ⟨"c3", 3⟩, ⟨"c4", 4⟩,
                  ⟨"c5", 5⟩] : List MChunk).get ⟨i, hi⟩).start_time,
                score := 1 } := by
  refine ⟨by decide, ?_, ?_⟩
  · exact (C7_summary_sources_amended (fun _ => "")
      [⟨"c0", 0⟩, ⟨"c1", 1⟩, ⟨"c2", 2⟩, ⟨"c3", 3⟩, ⟨"c4", 4⟩, ⟨"c5", 5⟩] (by decide)).1
  · exact (C7_summary_sources_amended (fun _ => "")
      [⟨"c0", 0⟩, ⟨"c1", 1⟩, ⟨"c2", 2⟩, ⟨"c3", 3⟩, ⟨"c4", 4⟩, ⟨"c5", 5⟩] (by decide)).2 1
      (by decide)

/-! Embedding of `src/services/retrieval_service.py` (`RetrievalService`). -/

/-- A vector-index match as read by `get_context`: the metadata fields
`text_content` and `start_time`, plus the similarity score. -/
structure RMatch where
  text_content : String
  start_time : ℚ
  score : ℚ
deriving Repr, DecidableEq

/-- The context-construction loop of `RetrievalService.get_context` (step 2):
for each match in index order, when its text is non-empty append the text to
the context parts and a `{text, start_time, score}` record to the sources. -/
def buildContext : List RMatch → List String × List SourceEntry
  | [] => ([], [])
  | m :: rest =>
      let tail := buildContext rest
      if m.text_content ≠ "" then
        (m.text_content :: tail.1,
         { text := m.text_content, start_time := m.start_time, score := m.score } :: tail.2)
      else tail

/-- `RetrievalService.get_context`, taking the index response for the query as
input (embedding and vector search are the external collaborators). -/
def getContext (matchList : List RMatch) (query videoId : String) : String × List SourceEntry :=
  if query = "" ∨ videoId = "" then ("", [])
  else if matchList = [] then ("", [])
  else
    (String.intercalate "\n\n" (buildContext matchList).1, (buildContext matchList).2)

theorem buildContext_eq (matchList : List RMatch) :
    buildContext matchList
      = ((matchList.filter (fun m => !(m.text_content = ""))).map (fun m => m.text_content),
         (matchList.filter (fun m => !(m.text_content = ""))).map
           (fun m => ({ text := m.text_content, start_time := m.start_time,
                        score := m.score } : SourceEntry))) := by
  induction matchList with
  | nil => rfl
  | cons m rest ih =>
      by_cases hm : m.text_content = ""
      · simp [buildContext, ih, List.filter_cons, hm]
      · simp [buildContext, ih, List.filter_cons, hm]

/-- C8: `get_context` returns `("", [])` when the query or video id is empty
and when the index returns zero matchList; otherwise the context text is the
non-empty match texts joined with a double newline in index order, and the
sources form the parallel list carrying each included match's text, start
time and similarity score in the same order. -/
theorem C8_get_context_contract (matchList : List RMatch) (query videoId : String) :
    ((query = "" ∨ videoId = "") → getContext matchList query videoId = ("", []))
    ∧ getContext [] query videoId = ("", [])
    ∧ (query ≠ "" → videoId ≠ "" →
        getContext matchList query videoId
          = (String.intercalate "\n\n"
              ((matchList.filter (fun m => !(m.text_content = ""))).map (fun m => m.text_content)),
             (matchList.filter (fun m => !(m.text_content = ""))).map
               (fun m => ({ text := m.text_content, start_time := m.start_time,
                            score := m.score } : SourceEntry)))) := by
  refine ⟨?_, ?_, ?_⟩
  · intro hq
    simp only [getContext, if_pos hq]
  · by_cases hq : query = "" ∨ videoId = ""
    · simp only [getContext, if_pos hq]
    · simp [getContext, hq]
  · intro hq hv
    have hor : ¬ (query = "" ∨ videoId = "") := by
      intro hc
      rcases hc with hc | hc
      · exact hq hc
      · exact hv hc
    by_cases hm : matchList = []
    · subst hm
      simp only [getContext, if_neg hor, if_pos rfl]
      rfl
    · simp only [getContext, if_neg hor, if_neg hm]
      rw [buildContext_eq]

/-- C8 witness: with a concrete query, video id and two matchList (one of which
carries an empty text and is dropped), the context and sources follow the
filter/map characterisation. -/
theorem C8_get_context_contract_witness :
    ("what?" : String) ≠ ""
    ∧ ("vid" : String) ≠ ""
    ∧ getContext [⟨"alpha", 1, 9/10⟩, ⟨"", 2, 1/2⟩, ⟨"beta", 3, 1/4⟩] "what?" "vid"
        = (String.intercalate "\n\n"
            ((([⟨"alpha", 1, 9/10⟩, ⟨"", 2, 1/2⟩, ⟨"beta", 3, 1/4⟩] : List RMatch).filter
                (fun m => !(m.text_content = ""))).map (fun m => m.text_content)),
           (([⟨"alpha", 1, 9/10⟩, ⟨"", 2, 1/2⟩, ⟨"beta", 3, 1/4⟩] : List RMatch).filter
              (fun m => !(m.text_content = ""))).map
             (fun m => ({ text := m.text_content, start_time := m.start_time,
                          score := m.score } : SourceEntry))) := by
  refine ⟨by decide, by decide, ?_⟩
  exact (C8_get_context_contract [⟨"alpha", 1, 9/10⟩, ⟨"", 2, 1/2⟩, ⟨"beta", 3, 1/4⟩]
    "what?" "vid").2.2 (by decide) (by decide)

/-! Embedding of `src/services/intent_classifier.py` (`IntentClassifier`). -/

/-- `QueryIntent`. -/
inductive QueryIntent where
  | FULL_VIDEO_SUMMARY
  | SPECIFIC_QUERY
deriving Repr, DecidableEq

/-- Python `str.strip()`: remove leading and trailing whitespace. -/
def pyStrip (s : String) : String :=
  ⟨((s.toList.dropWhile Char.isWhitespace).reverse.dropWhile Char.isWhitespace).reverse⟩

/-- Python `str.upper()` (character-wise uppercasing). -/
def pyUpper (s : String) : String := ⟨s.toList.map Char.toUpper⟩

/-- Python `token in s` (substring containment). -/
def containsToken (s token : String) : Bool :=
  (findFrom s.toList token.toList 0).isSome

/-- `IntentClassifier.CLASSIFICATION_PROMPT` with the query formatted in. -/
def classificationPrompt (query : String) : String :=
  "You are an intent classifier for a YouTube video Q&A application.\n\nYour task: Determine if the user wants a FULL SUMMARY of the entire video, or if they have a SPECIFIC question about a topic in the video.\n\nFULL_VIDEO_SUMMARY - User wants:\n- A complete overview of the video\n- Summary of all main topics covered\n- General \"what is this video about\" questions\n- No specific topic mentioned\n\nSPECIFIC_QUERY - User wants:\n- Information about a specific topic, concept, or section\n- Summary of a PARTICULAR part/topic (not the whole video)\n- Answers to specific questions\n- Details about something specific mentioned\n\nExamples:\n- \"Give me a summary\" → FULL_VIDEO_SUMMARY\n- \"Summarize the whole video\" → FULL_VIDEO_SUMMARY  \n- \"What are the main points?\" → FULL_VIDEO_SUMMARY\n- \"What is this video about?\" → FULL_VIDEO_SUMMARY\n- \"Summarize the part about machine learning\" → SPECIFIC_QUERY\n- \"What does he say about Python?\" → SPECIFIC_QUERY\n- \"Give me a summary of the authentication section\" → SPECIFIC_QUERY\n- \"How does the speaker explain databases?\" → SPECIFIC_QUERY\n- \"What are the key points about security?\" → SPECIFIC_QUERY\n\nUser Query: "
    ++ query ++ "\n\nRespond with ONLY one word: either FULL_VIDEO_SUMMARY or SPECIFIC_QUERY"

/-- `IntentClassifier.classify`, with the generative-model call as the
external collaborator `modelCall` (`Except.error` models a raised
exception). -/
def classify (modelCall : String → Except String String) (query : String) : QueryIntent :=
  if query = "" ∨ pyStrip query = "" then QueryIntent.SPECIFIC_QUERY
  else
    match modelCall (classificationPrompt query) with
    | Except.error _ => QueryIntent.SPECIFIC_QUERY
    | Except.ok text =>
        let result := pyUpper (pyStrip text)
        if containsToken result "FULL_VIDEO_SUMMARY" then QueryIntent.FULL_VIDEO_SUMMARY
        else QueryIntent.SPECIFIC_QUERY

/-- C9 counterexample: the claim says classify returns SPECIFIC_QUERY whenever
the response text does not contain the token FULL_VIDEO_SUMMARY; but the code
uppercases the response before the containment check, so the response
"full_video_summary" — which does not contain the token — still classifies as
FULL_VIDEO_SUMMARY. -/
theorem C9_classifier_fallback_counterexample :
    classify (fun _ => Except.ok "full_video_summary") "hi" = QueryIntent.FULL_VIDEO_SUMMARY
    ∧ containsToken "full_video_summary" "FULL_VIDEO_SUMMARY" = false := by
  decide

/-- C9 amended: for every query, if the classification model call raises, or
the whitespace-stripped and uppercased response text does not contain the
token FULL_VIDEO_SUMMARY, `classify` returns SPECIFIC_QUERY; `classify` is a
total function, so an exception of the model call is never propagated. -/
theorem C9_classifier_fallback_amended (modelCall : String → Except String String)
    (query : String) :
    (∀ e, modelCall (classificationPrompt query) = Except.error e →
      classify modelCall query = QueryIntent.SPECIFIC_QUERY)
    ∧ (∀ resp, modelCall (classificationPrompt query) = Except.ok resp →
        containsToken (pyUpper (pyStrip resp)) "FULL_VIDEO_SUMMARY" = false →
        classify modelCall query = QueryIntent.SPECIFIC_QUERY) := by
  constructor
  · intro e he
    unfold classify
    by_cases hq : query = "" ∨ pyStrip query = ""
    · rw [if_pos hq]
    · rw [if_neg hq, he]
  · intro resp hresp hcontains
    unfold classify
    by_cases hq : query = "" ∨ pyStrip query = ""
    · rw [if_pos hq]
    · rw [if_neg hq, hresp]
      simp [hcontains]

/-- C9 amended witness: a model call that raises makes classify fall back to
SPECIFIC_QUERY. -/
theorem C9_classifier_fallback_amended_witness :
    ((fun _ => Except.error "boom") : String → Except String String)
        (classificationPrompt "hi") = Except.error "boom"
    ∧ classify (fun _ => Except.error "boom") "hi" = QueryIntent.SPECIFIC_QUERY :=
  ⟨rfl, (C9_classifier_fallback_amended (fun _ => Except.error "boom") "hi").1 "boom" rfl⟩

/-! Embedding of `src/services/pinecone_client.py` (`PineconeClient`). -/

/-- `PineconeClient.check_video_exists`, with the filtered index query's
outcome as input: `Except.error` models a raised exception, `Except.ok`
carries the returned match list. -/
def checkVideoExists (response : Except String (List RMatch)) : Bool :=
  match response with
  | Except.error _ => false
  | Except.ok matchList => decide (0 < matchList.length)

/-- C10: `check_video_exists` never raises — it maps every exception of the
underlying index query to `false` (routing the video to reprocessing), and
on a successful query it returns `true` exactly when at least one match came
back. -/
theorem C10_check_video_exists_contract :
    (∀ e : String, checkVideoExists (Except.error e) = false)
    ∧ (∀ matchList : List RMatch,
        (checkVideoExists (Except.ok matchList) = true ↔ matchList ≠ [])) := by
  constructor
  · intro e
    rfl
  · intro matchList
    simp [checkVideoExists, List.length_pos]

/-- C10 witness: a failing query yields `false`; one match yields `true`. -/
theorem C10_check_video_exists_contract_witness :
    checkVideoExists (Except.error "outage") = false
    ∧ (checkVideoExists (Except.ok [⟨"alpha", 1, 1⟩]) = true ↔ ([⟨"alpha", 1, 1⟩] : List RMatch) ≠ []) :=
  ⟨C10_check_video_exists_contract.1 "outage",
   C10_check_video_exists_contract.2 [⟨"alpha", 1, 1⟩]⟩

end AskTheYouTube
